import Mathlib

/-!
# Verification of the actix-web2 request-dispatch core

A shallow embedding of the routing/dispatch core of the `actix-web2`
repository, together with proofs of its behavioural properties.

The embedding follows the Rust source:
* `src/filter.rs`    — the predicate/filter engine (`AnyFilter`, `AllFilter`,
  `NotFilter`, `MethodFilter`, `HeaderFilter`, `HostFilter`);
* `src/resource.rs`  — `ResourceService::call` dispatch over compiled routes;
* `src/extractor.rs` — `Option<T>` extraction and the `tuple_from_req!`
  join state machine (`TupleFromRequestN::poll`);
* `src/state.rs`     — `State<S>` extraction from application extensions;
* `src/middleware/defaultheaders.rs` — the `DefaultHeaders` transform.

Futures are modelled by their observable poll behaviour: a member future
returns `NotReady` on every poll before its completion time and its result
from that poll on.  Requests, header maps and responses are modelled as
plain data.
-/

namespace ActixWeb2

/-! ## Requests and header maps

`HttpRequest` models the request data the filter engine inspects: the HTTP
method and the header map.  A header map is an ordered list of name/value
pairs; `headerGet` returns the first value stored under a name, matching
`HeaderMap::get`. -/

structure HttpRequest where
  method : String
  headers : List (String × String)
deriving Repr, DecidableEq

def headerGet (hs : List (String × String)) (name : String) : Option String :=
  match hs with
  | [] => none
  | (n, v) :: rest => if n = name then some v else headerGet rest name

/-! ## Filter engine (`src/filter.rs`)

A boxed `Filter` trait object is modelled as a boolean predicate on the
request.  `AnyFilter`, `AllFilter` and `NotFilter` keep the source's
representation: a vector (list) of boxed filters, respectively one boxed
filter, and their `check` methods are the source's loops. -/

abbrev ReqFilter := HttpRequest → Bool

structure AnyFilter where
  filters : List ReqFilter

def Any (f : ReqFilter) : AnyFilter := ⟨[f]⟩

def AnyFilter.or (a : AnyFilter) (f : ReqFilter) : AnyFilter :=
  ⟨a.filters ++ [f]⟩

def anyCheckLoop (fs : List ReqFilter) (req : HttpRequest) : Bool :=
  match fs with
  | [] => false
  | p :: rest => if p req then true else anyCheckLoop rest req

def AnyFilter.check (a : AnyFilter) (req : HttpRequest) : Bool :=
  anyCheckLoop a.filters req

structure AllFilter where
  filters : List ReqFilter

def All (f : ReqFilter) : AllFilter := ⟨[f]⟩

def AllFilter.and (a : AllFilter) (f : ReqFilter) : AllFilter :=
  ⟨a.filters ++ [f]⟩

def allCheckLoop (fs : List ReqFilter) (req : HttpRequest) : Bool :=
  match fs with
  | [] => true
  | p :: rest => if !p req then false else allCheckLoop rest req

def AllFilter.check (a : AllFilter) (req : HttpRequest) : Bool :=
  allCheckLoop a.filters req

structure NotFilter where
  filter : ReqFilter

def Not' (f : ReqFilter) : NotFilter := ⟨f⟩

def NotFilter.check (n : NotFilter) (req : HttpRequest) : Bool :=
  !n.filter req

/-- A `MethodFilter` holds an HTTP method and matches on exact equality
(`request.method() == self.0`). -/
structure MethodFilter where
  method : String

def MethodFilter.check (m : MethodFilter) (req : HttpRequest) : Bool :=
  req.method == m.method

def Get : MethodFilter := ⟨"GET"⟩
def Post : MethodFilter := ⟨"POST"⟩

/-- A `HeaderFilter` holds a header name and value; `check` looks the name up
in the request's header map and compares the stored value for equality. -/
structure HeaderFilter where
  name : String
  value : String

def Header (name value : String) : HeaderFilter := ⟨name, value⟩

def HeaderFilter.check (f : HeaderFilter) (req : HttpRequest) : Bool :=
  match headerGet req.headers f.name with
  | some val => val == f.value
  | none => false

/-- A `HostFilter` holds a host string and an optional scheme; its `check` is
the source's stub, which ignores the request and returns `false`. -/
structure HostFilter where
  host : String
  scheme : Option String

def Host (host : String) : HostFilter := ⟨host, none⟩

def HostFilter.setScheme (f : HostFilter) (scheme : String) : HostFilter :=
  ⟨f.host, some scheme⟩

def HostFilter.check (_f : HostFilter) (_req : HttpRequest) : Bool :=
  false

end ActixWeb2

namespace ActixWeb2

/-! ### Filter algebra theorems -/

theorem anyCheckLoop_append (fs gs : List ReqFilter) (req : HttpRequest) :
    anyCheckLoop (fs ++ gs) req =
      (anyCheckLoop fs req || anyCheckLoop gs req) := by
  induction fs with
  | nil => simp [anyCheckLoop]
  | cons p rest ih =>
      simp only [List.cons_append, anyCheckLoop]
      by_cases h : p req = true
      · simp [h]
      · simp [h, ih]

theorem allCheckLoop_append (fs gs : List ReqFilter) (req : HttpRequest) :
    allCheckLoop (fs ++ gs) req =
      (allCheckLoop fs req && allCheckLoop gs req) := by
  induction fs with
  | nil => simp [allCheckLoop]
  | cons p rest ih =>
      simp only [List.cons_append, allCheckLoop]
      by_cases h : p req = true
      · simp [h, ih]
      · simp [h]

/-- Claim C2: For any filters `a`, `b` and any request:
`All(a).and(b)` checks true iff both `a` and `b` check true;
`Any(a).or(b)` checks true iff at least one of them checks true;
`Not(a)` checks true iff `a` checks false. -/
theorem filter_combinator_algebra (a b : ReqFilter) (req : HttpRequest) :
    (((All a).and b).check req = true ↔ (a req = true ∧ b req = true)) ∧
    (((Any a).or b).check req = true ↔ (a req = true ∨ b req = true)) ∧
    ((Not' a).check req = true ↔ a req = false) := by
  refine ⟨?_, ?_, ?_⟩
  · simp [AllFilter.check, AllFilter.and, All, allCheckLoop_append, allCheckLoop]
  · simp [AnyFilter.check, AnyFilter.or, Any, anyCheckLoop_append, anyCheckLoop]
  · simp [NotFilter.check, Not']

/-- Witness for `filter_combinator_algebra` at concrete filters and a
concrete request. -/
theorem filter_combinator_algebra_witness :
    ((All (fun r => r.method == "GET")).and
        (fun r => r.headers.isEmpty)).check ⟨"GET", []⟩ = true := by
  exact (filter_combinator_algebra (fun r => r.method == "GET")
    (fun r => r.headers.isEmpty) ⟨"GET", []⟩).1.mpr (by decide)

/-- Claim C7: A `Header` filter checks true iff the request's header map
holds, under the configured name, exactly the configured value; with no
header of that name it checks false. -/
theorem header_filter_exact_match (name value : String) (req : HttpRequest) :
    ((Header name value).check req = true ↔
      headerGet req.headers name = some value) ∧
    (headerGet req.headers name = none →
      (Header name value).check req = false) := by
  constructor
  · unfold HeaderFilter.check Header
    cases h : headerGet req.headers name with
    | none => simp [h]
    | some v => simp [h, beq_iff_eq]
  · intro h
    unfold HeaderFilter.check Header
    simp [h]

/-- Witness for `header_filter_exact_match`: both branches at concrete
requests. -/
theorem header_filter_exact_match_witness :
    ((Header "host" "a").check ⟨"GET", [("host", "a")]⟩ = true) ∧
    ((Header "host" "a").check ⟨"GET", []⟩ = false) :=
  ⟨(header_filter_exact_match "host" "a" ⟨"GET", [("host", "a")]⟩).1.mpr
      (by decide),
   (header_filter_exact_match "host" "a" ⟨"GET", []⟩).2 (by decide)⟩

/-- Claim C8: The `Host` filter is a stub: whether or not a scheme is set,
its `check` returns `false` on every request. -/
theorem host_filter_never_matches (host scheme : String) (req : HttpRequest) :
    (Host host).check req = false ∧
    ((Host host).setScheme scheme).check req = false :=
  ⟨rfl, rfl⟩

/-! ## Responses and Resource dispatch (`src/resource.rs`)

A `Response` carries a status code and a header map.  `Response.notFound`
models `Response::NotFound().finish()`.

A compiled `RouteService` exposes `check` — a side-effecting predicate that
may mutate the request (it attaches matched path parameters), modelled as
returning the updated request alongside the boolean — and `call`, which
produces the response.  `RouteService` itself lives in `src/route.rs`,
which only its callers see here; the spec describes `check` as a
side-effecting predicate and `call` as producing the route's response, and
that is all `ResourceService::call` depends on, so routes are abstract
check/call pairs over an abstract request type. -/

structure Response where
  status : Nat
  headers : List (String × String)
deriving Repr, DecidableEq

def Response.notFound : Response := ⟨404, []⟩

structure RouteService (Req : Type) where
  check : Req → Bool × Req
  call : Req → Response

structure ResourceService (Req : Type) where
  routes : List (RouteService Req)
  default : Option (Req → Response)

/-- The `for route in self.routes.iter_mut()` loop of
`ResourceService::call`: offer the (threaded, possibly mutated) request to
each route in order; the first whose `check` is true calls and its
response is returned (`Sum.inl`); if all decline, the final request falls
through (`Sum.inr`). -/
def resourceCallLoop {Req : Type} (routes : List (RouteService Req))
    (req : Req) : Response ⊕ Req :=
  match routes with
  | [] => Sum.inr req
  | r :: rest =>
      match r.check req with
      | (true, req') => Sum.inl (r.call req')
      | (false, req') => resourceCallLoop rest req'

/-- Embedding of `ResourceService::call`: dispatch through the route loop; on fall-through
use the default service when configured, else `Response::NotFound()`. -/
def ResourceService.call {Req : Type} (s : ResourceService Req)
    (req : Req) : Response :=
  match resourceCallLoop s.routes req with
  | Sum.inl res => res
  | Sum.inr req' =>
      match s.default with
      | some d => d req'
      | none => Response.notFound

/-- All routes in the list decline the request, `check` threading the
(possibly mutated) request from each route to the next; the final request
is the third argument. -/
inductive AllDecline {Req : Type} :
    List (RouteService Req) → Req → Req → Prop
  | nil (req : Req) : AllDecline [] req req
  | cons {r : RouteService Req} {rest : List (RouteService Req)}
      {req req' final : Req} :
      r.check req = (false, req') → AllDecline rest req' final →
      AllDecline (r :: rest) req final

/-- Some route accepts the request: walking the list in order with the
threaded request, every earlier route's `check` is false, and the first
route whose `check` is true produces the given response via its `call`. -/
inductive FirstAccept {Req : Type} :
    List (RouteService Req) → Req → Response → Prop
  | head {r : RouteService Req} {rest : List (RouteService Req)}
      {req req' : Req} :
      r.check req = (true, req') → FirstAccept (r :: rest) req (r.call req')
  | tail {r : RouteService Req} {rest : List (RouteService Req)}
      {req req' : Req} {res : Response} :
      r.check req = (false, req') → FirstAccept rest req' res →
      FirstAccept (r :: rest) req res

end ActixWeb2

namespace ActixWeb2

theorem resourceCallLoop_of_firstAccept {Req : Type}
    {routes : List (RouteService Req)} {req : Req} {res : Response}
    (h : FirstAccept routes req res) :
    resourceCallLoop routes req = Sum.inl res := by
  induction h with
  | head hc => simp [resourceCallLoop, hc]
  | tail hc _ ih => simp [resourceCallLoop, hc, ih]

theorem resourceCallLoop_of_allDecline {Req : Type}
    {routes : List (RouteService Req)} {req final : Req}
    (h : AllDecline routes req final) :
    resourceCallLoop routes req = Sum.inr final := by
  induction h with
  | nil => simp [resourceCallLoop]
  | cons hc _ ih => simp [resourceCallLoop, hc, ih]

/-- Claim C1: `ResourceService::call` offers the request to the compiled
routes in declaration order: the first route whose `check` is true handles
the call; when every route declines, the configured default service
handles the (threaded) request; with no default, a 404 Not Found response
is returned.  In particular a resource with no routes and no default
returns `Response.notFound` (status 404) on every request. -/
theorem resourceService_call_dispatch {Req : Type}
    (s : ResourceService Req) (req : Req) :
    (∀ res : Response, FirstAccept s.routes req res → s.call req = res) ∧
    (∀ final : Req, AllDecline s.routes req final →
      ((∀ d, s.default = some d → s.call req = d final) ∧
       (s.default = none → s.call req = Response.notFound))) ∧
    (s.routes = [] → s.default = none →
      s.call req = Response.notFound ∧ (s.call req).status = 404) := by
  refine ⟨?_, ?_, ?_⟩
  · intro res h
    unfold ResourceService.call
    rw [resourceCallLoop_of_firstAccept h]
  · intro final h
    constructor
    · intro d hd
      unfold ResourceService.call
      rw [resourceCallLoop_of_allDecline h, hd]
    · intro hd
      unfold ResourceService.call
      rw [resourceCallLoop_of_allDecline h, hd]
  · intro hr hd
    unfold ResourceService.call
    rw [hr, hd]
    exact ⟨rfl, rfl⟩

/-- A concrete two-route resource for the dispatch witness: the first
route only accepts `GET`, the second accepts anything. -/
def witnessRouteGet : RouteService HttpRequest :=
  ⟨fun req => (req.method == "GET", req), fun _ => ⟨200, []⟩⟩

def witnessRouteAll : RouteService HttpRequest :=
  ⟨fun req => (true, req), fun _ => ⟨201, []⟩⟩

def witnessResource : ResourceService HttpRequest :=
  ⟨[witnessRouteGet, witnessRouteAll], none⟩

def witnessEmptyResource : ResourceService HttpRequest :=
  ⟨[], none⟩

/-- Witness for `resourceService_call_dispatch`: a POST request falls past
the GET-only route to the catch-all route, and the empty resource returns
the 404 response. -/
theorem resourceService_call_dispatch_witness :
    witnessResource.call ⟨"POST", []⟩ = ⟨201, []⟩ ∧
    witnessEmptyResource.call ⟨"POST", []⟩ = Response.notFound :=
  ⟨(resourceService_call_dispatch witnessResource ⟨"POST", []⟩).1 ⟨201, []⟩
      (@FirstAccept.tail HttpRequest witnessRouteGet [witnessRouteAll]
        ⟨"POST", []⟩ ⟨"POST", []⟩ ⟨201, []⟩ (by decide)
        (@FirstAccept.head HttpRequest witnessRouteAll []
          ⟨"POST", []⟩ ⟨"POST", []⟩ (by decide))),
   ((resourceService_call_dispatch witnessEmptyResource ⟨"POST", []⟩).2.2
      rfl rfl).1⟩

/-! ## Errors and extraction wrappers (`src/extractor.rs`, `src/state.rs`)

An `Error` value carries the HTTP status class of the response it converts
to and its message; `ErrorInternalServerError` builds a 500-class error,
matching the helper of the same name.  A member extraction future is
modelled by its eventual outcome, an `Except` of the member's error type. -/

structure Error where
  status : Nat
  message : String
deriving Repr, DecidableEq

def ErrorInternalServerError (msg : String) : Error := ⟨500, msg⟩

/-- Embedding of `impl FromRequest for Option<T>`: run `T`'s extraction and `then`-map
its outcome — `Ok(v)` to `ok(Some(v))`, any `Err(_)` to `ok(None)`. -/
def optionFromRequest {E T : Type} (r : Except E T) : Except Error (Option T) :=
  match r with
  | Except.ok v => Except.ok (some v)
  | Except.error _ => Except.ok none

/-- Claim C5: `Option<T>` extraction always succeeds: it yields `Some v`
when `T`'s extraction succeeds with `v`, and `None` when `T`'s extraction
fails with any error, discarding the error. -/
theorem option_extraction_total {E T : Type} (r : Except E T) :
    (∃ o : Option T, optionFromRequest r = Except.ok o) ∧
    (∀ v : T, r = Except.ok v → optionFromRequest r = Except.ok (some v)) ∧
    (∀ e : E, r = Except.error e → optionFromRequest r = Except.ok none) := by
  refine ⟨?_, ?_, ?_⟩
  · cases r with
    | ok v => exact ⟨some v, rfl⟩
    | error e => exact ⟨none, rfl⟩
  · intro v hv; rw [hv]; rfl
  · intro e he; rw [he]; rfl

/-- Witness for `option_extraction_total`: both branches at concrete
outcomes. -/
theorem option_extraction_total_witness :
    optionFromRequest (Except.ok 7 : Except String Nat) = Except.ok (some 7) ∧
    optionFromRequest (Except.error "e" : Except String Nat) =
      Except.ok none :=
  ⟨(option_extraction_total (Except.ok 7 : Except String Nat)).2.1 7 rfl,
   (option_extraction_total
      (Except.error "e" : Except String Nat)).2.2 "e" rfl⟩

/-- A `ServiceRequest` as seen by `State<S>` extraction: the application
extensions either hold a `State<S>` entry or not, plus the rest of the
request (payload), which extraction must leave untouched. -/
structure ServiceRequest (S P : Type) where
  appState : Option S
  payload : P
deriving Repr, DecidableEq

/-- Embedding of `impl FromRequest for State<S>`: look `State<S>` up in the application
extensions; clone it on success (an `Rc` clone, sharing the stored state),
else fail with `ErrorInternalServerError`.  The request is returned
alongside to record that it is not mutated. -/
def stateFromRequest {S P : Type} (req : ServiceRequest S P) :
    Except Error S × ServiceRequest S P :=
  match req.appState with
  | some st => (Except.ok st, req)
  | none =>
      (Except.error (ErrorInternalServerError
        "State is not configured, use App::add_state()"), req)

/-- Claim C10: `State<S>` extraction succeeds with the stored state exactly
when a `State<S>` entry is present in the application extensions; when
none is configured it fails with a 500-class (internal server error)
error value, leaving the request unchanged in both cases. -/
theorem state_extraction_spec {S P : Type} (req : ServiceRequest S P) :
    (∀ s : S, req.appState = some s →
      stateFromRequest req = (Except.ok s, req)) ∧
    (req.appState = none →
      (stateFromRequest req).2 = req ∧
      ∃ m : String, (stateFromRequest req).1 = Except.error ⟨500, m⟩) := by
  constructor
  · intro s hs
    unfold stateFromRequest
    rw [hs]
  · intro hn
    unfold stateFromRequest
    rw [hn]
    exact ⟨rfl, _, rfl⟩

/-- Witness for `state_extraction_spec`: both branches at concrete
requests. -/
theorem state_extraction_spec_witness :
    stateFromRequest (⟨some 3, ()⟩ : ServiceRequest Nat Unit) =
      (Except.ok 3, ⟨some 3, ()⟩) ∧
    ∃ m : String,
      (stateFromRequest (⟨none, ()⟩ : ServiceRequest Nat Unit)).1 =
        Except.error ⟨500, m⟩ :=
  ⟨(state_extraction_spec (⟨some 3, ()⟩ : ServiceRequest Nat Unit)).1 3 rfl,
   ((state_extraction_spec (⟨none, ()⟩ : ServiceRequest Nat Unit)).2 rfl).2⟩

/-! ## DefaultHeaders middleware (`src/middleware/defaultheaders.rs`)

The middleware's configuration (`Inner`) is an ordered multi-map of headers
to apply plus the content-type flag.  `containsKey` models
`HeaderMap::contains_key` and `headerInsert` models `HeaderMap::insert`
(which replaces any existing values under the name). -/

def containsKey (hs : List (String × String)) (k : String) : Bool :=
  hs.any (fun p => p.1 == k)

def headerInsert (hs : List (String × String)) (k v : String) :
    List (String × String) :=
  hs.filter (fun p => !(p.1 == k)) ++ [(k, v)]

structure DHInner where
  ct : Bool
  headers : List (String × String)

def DefaultHeaders.new : DHInner := ⟨false, []⟩

/-- Builder method `DefaultHeaders::header`: append a name/value pair to the configured
header map. -/
def DHInner.header (i : DHInner) (k v : String) : DHInner :=
  ⟨i.ct, i.headers ++ [(k, v)]⟩

/-- Builder method `DefaultHeaders::content_type`: set the content-type flag. -/
def DHInner.contentType (i : DHInner) : DHInner :=
  ⟨true, i.headers⟩

/-- The `for (key, value) in inner.headers.iter()` loop of
`DefaultHeaders::call`: insert each configured header into the response
only if the response does not already contain the name. -/
def dhHeaderLoop (cfg : List (String × String)) (res : Response) : Response :=
  match cfg with
  | [] => res
  | (k, v) :: rest =>
      dhHeaderLoop rest
        (if containsKey res.headers k then res
         else { res with headers := headerInsert res.headers k v })

def contentTypeKey : String := "content-type"

/-- The default content-type step of `DefaultHeaders::call`: if the flag
is set and the response (after the header loop) lacks a content-type
header, set it to `application/octet-stream`. -/
def dhContentTypeStep (ct : Bool) (res : Response) : Response :=
  if ct && !containsKey res.headers contentTypeKey then
    { res with
      headers := headerInsert res.headers contentTypeKey
        "application/octet-stream" }
  else res

/-- Embedding of `DefaultHeaders::call` on a successful inner response: delegate to the
inner service, then post-process its response. -/
def defaultHeadersCall {Req : Type} (inner : DHInner) (srv : Req → Response)
    (req : Req) : Response :=
  dhContentTypeStep inner.ct (dhHeaderLoop inner.headers (srv req))

/-! ### Header-map lemmas -/

theorem containsKey_append (hs tl : List (String × String)) (k : String) :
    containsKey (hs ++ tl) k = (containsKey hs k || containsKey tl k) :=
  List.any_append

theorem headerGet_append (hs tl : List (String × String)) (k : String) :
    headerGet (hs ++ tl) k =
      match headerGet hs k with
      | some v => some v
      | none => headerGet tl k := by
  induction hs with
  | nil => simp [headerGet]
  | cons p rest ih =>
      obtain ⟨n, v⟩ := p
      by_cases h : n = k
      · simp [headerGet, h]
      · simp [headerGet, h, ih]

theorem containsKey_eq_false_iff (hs : List (String × String)) (k : String) :
    containsKey hs k = false ↔ headerGet hs k = none := by
  induction hs with
  | nil => simp [containsKey, headerGet]
  | cons p rest ih =>
      obtain ⟨n, v⟩ := p
      simp only [containsKey, List.any_cons] at ih ⊢
      by_cases h : n = k
      · simp [headerGet, h]
      · simp [headerGet, h, ih]

theorem containsKey_eq_true_iff (hs : List (String × String)) (k : String) :
    containsKey hs k = true ↔ ∃ v, headerGet hs k = some v := by
  constructor
  · intro h
    cases hval : headerGet hs k with
    | none =>
        rw [(containsKey_eq_false_iff hs k).mpr hval] at h
        exact absurd h (by simp)
    | some w => exact ⟨w, rfl⟩
  · rintro ⟨v, hv⟩
    cases hc : containsKey hs k with
    | false => rw [(containsKey_eq_false_iff hs k).mp hc] at hv; cases hv
    | true => rfl

theorem headerInsert_of_absent (hs : List (String × String)) (k v : String)
    (h : containsKey hs k = false) : headerInsert hs k v = hs ++ [(k, v)] := by
  unfold headerInsert
  have hall : ∀ p ∈ hs, (!(p.1 == k)) = true := by
    intro p hp
    simp only [containsKey, List.any_eq_false] at h
    simp [h p hp]
  rw [List.filter_eq_self.mpr hall]

/-- The header loop never disturbs a header the response already carries:
its value under `headerGet` is unchanged and it stays present. -/
theorem dhHeaderLoop_preserves (cfg : List (String × String)) :
    ∀ (res : Response) (k : String), containsKey res.headers k = true →
      headerGet (dhHeaderLoop cfg res).headers k = headerGet res.headers k ∧
      containsKey (dhHeaderLoop cfg res).headers k = true := by
  induction cfg with
  | nil => intro res k h; exact ⟨rfl, h⟩
  | cons p rest ih =>
      intro res k h
      obtain ⟨k', v'⟩ := p
      simp only [dhHeaderLoop]
      by_cases hc : containsKey res.headers k' = true
      · rw [if_pos hc]
        exact ih res k h
      · rw [if_neg hc]
        rw [Bool.not_eq_true] at hc
        rw [headerInsert_of_absent _ _ _ hc]
        have hcont : containsKey (res.headers ++ [(k', v')]) k = true := by
          rw [containsKey_append, h, Bool.true_or]
        have hrec := ih { res with headers := res.headers ++ [(k', v')] } k
          hcont
        refine ⟨?_, hrec.2⟩
        rw [hrec.1]
        obtain ⟨w, hw⟩ := (containsKey_eq_true_iff res.headers k).mp h
        show headerGet (res.headers ++ [(k', v')]) k = headerGet res.headers k
        rw [headerGet_append, hw]

/-- The header loop inserts an absent configured header with its first
configured value. -/
theorem dhHeaderLoop_inserts (cfg : List (String × String)) :
    ∀ (res : Response) (k v : String), headerGet cfg k = some v →
      containsKey res.headers k = false →
      headerGet (dhHeaderLoop cfg res).headers k = some v ∧
      containsKey (dhHeaderLoop cfg res).headers k = true := by
  induction cfg with
  | nil => intro res k v hg; exact absurd hg (by simp [headerGet])
  | cons p rest ih =>
      intro res k v hg habs
      obtain ⟨k', v'⟩ := p
      simp only [dhHeaderLoop]
      by_cases hk : k' = k
      · subst hk
        have hv : v' = v := by
          simpa [headerGet] using hg
        subst hv
        rw [if_neg (by rw [habs]; exact Bool.false_ne_true)]
        rw [headerInsert_of_absent _ _ _ habs]
        have hget : headerGet (res.headers ++ [(k', v')]) k' = some v' := by
          rw [headerGet_append,
            (containsKey_eq_false_iff res.headers k').mp habs]
          simp [headerGet]
        have hcont : containsKey (res.headers ++ [(k', v')]) k' = true := by
          rw [containsKey_append, Bool.or_eq_true]
          right
          simp [containsKey]
        have hpres := dhHeaderLoop_preserves rest
          { res with headers := res.headers ++ [(k', v')] } k' hcont
        exact ⟨hpres.1.trans hget, hpres.2⟩
      · have hg' : headerGet rest k = some v := by
          simpa [headerGet, hk] using hg
        by_cases hc : containsKey res.headers k' = true
        · rw [if_pos hc]
          exact ih res k v hg' habs
        · rw [if_neg hc]
          rw [Bool.not_eq_true] at hc
          rw [headerInsert_of_absent _ _ _ hc]
          have habs' : containsKey (res.headers ++ [(k', v')]) k = false := by
            rw [containsKey_append, habs, Bool.false_or]
            simp [containsKey, hk]
          exact ih { res with headers := res.headers ++ [(k', v')] } k v
            hg' habs'

/-- With no configured header under `k`, the header loop leaves an absent
`k` absent. -/
theorem dhHeaderLoop_absent (cfg : List (String × String)) :
    ∀ (res : Response) (k : String), headerGet cfg k = none →
      containsKey res.headers k = false →
      containsKey (dhHeaderLoop cfg res).headers k = false := by
  induction cfg with
  | nil => intro res k _ habs; exact habs
  | cons p rest ih =>
      intro res k hg habs
      obtain ⟨k', v'⟩ := p
      have hk : k' ≠ k := by
        intro he
        rw [he] at hg
        simp [headerGet] at hg
      have hg' : headerGet rest k = none := by
        simpa [headerGet, hk] using hg
      simp only [dhHeaderLoop]
      by_cases hc : containsKey res.headers k' = true
      · rw [if_pos hc]
        exact ih res k hg' habs
      · rw [if_neg hc]
        rw [Bool.not_eq_true] at hc
        rw [headerInsert_of_absent _ _ _ hc]
        have habs' : containsKey (res.headers ++ [(k', v')]) k = false := by
          rw [containsKey_append, habs, Bool.false_or]
          simp [containsKey, hk]
        exact ih { res with headers := res.headers ++ [(k', v')] } k hg' habs'

/-- The content-type step never disturbs a header the response already
carries. -/
theorem dhContentTypeStep_preserves (ct : Bool) (res : Response) (k : String)
    (h : containsKey res.headers k = true) :
    headerGet (dhContentTypeStep ct res).headers k =
      headerGet res.headers k := by
  unfold dhContentTypeStep
  by_cases hcond : (ct && !containsKey res.headers contentTypeKey) = true
  · rw [if_pos hcond]
    have habs : containsKey res.headers contentTypeKey = false := by
      rcases Bool.and_eq_true _ _ |>.mp hcond with ⟨_, hnc⟩
      rw [Bool.not_eq_true'] at hnc
      exact hnc
    rw [headerInsert_of_absent _ _ _ habs]
    obtain ⟨w, hw⟩ := (containsKey_eq_true_iff res.headers k).mp h
    show headerGet (res.headers ++ _) k = headerGet res.headers k
    rw [headerGet_append, hw]
  · rw [if_neg hcond]

/-- Claim C6: `DefaultHeaders::call` on a successful inner response inserts
each configured header only if its name is absent: a header the inner
response already carries keeps its value; an absent configured header is
set to its (first) configured value; and with the content-type flag set,
a response lacking a content-type header (with none configured) gets
content-type `application/octet-stream`. -/
theorem defaultHeaders_only_if_absent {Req : Type} (inner : DHInner)
    (srv : Req → Response) (req : Req) :
    (∀ k : String, containsKey (srv req).headers k = true →
      headerGet (defaultHeadersCall inner srv req).headers k =
        headerGet (srv req).headers k) ∧
    (∀ k v : String, headerGet inner.headers k = some v →
      containsKey (srv req).headers k = false →
      headerGet (defaultHeadersCall inner srv req).headers k = some v) ∧
    (inner.ct = true → containsKey (srv req).headers contentTypeKey = false →
      headerGet inner.headers contentTypeKey = none →
      headerGet (defaultHeadersCall inner srv req).headers contentTypeKey =
        some "application/octet-stream") := by
  refine ⟨?_, ?_, ?_⟩
  · intro k hk
    unfold defaultHeadersCall
    have hpres := dhHeaderLoop_preserves inner.headers (srv req) k hk
    rw [dhContentTypeStep_preserves inner.ct _ k hpres.2]
    exact hpres.1
  · intro k v hcfg habs
    unfold defaultHeadersCall
    have hins := dhHeaderLoop_inserts inner.headers (srv req) k v hcfg habs
    rw [dhContentTypeStep_preserves inner.ct _ k hins.2]
    exact hins.1
  · intro hctf habs hcfg
    unfold defaultHeadersCall
    have habs' := dhHeaderLoop_absent inner.headers (srv req)
      contentTypeKey hcfg habs
    unfold dhContentTypeStep
    rw [hctf, habs']
    simp only [Bool.not_false, Bool.and_self, if_true]
    rw [headerInsert_of_absent _ _ _ habs']
    rw [headerGet_append,
      (containsKey_eq_false_iff _ _).mp habs']
    simp [headerGet]

/-- Witness for `defaultHeaders_only_if_absent`: the spec's example —
`DefaultHeaders::new().header("X", "1")` leaves an existing `X: existing`
untouched and sets `X: 1` on a response lacking `X`; the content-type
branch at a flagged configuration. -/
theorem defaultHeaders_only_if_absent_witness :
    headerGet (defaultHeadersCall (DefaultHeaders.new.header "X" "1")
      (fun _ : Unit => ⟨200, [("X", "existing")]⟩) ()).headers "X" =
        some "existing" ∧
    headerGet (defaultHeadersCall (DefaultHeaders.new.header "X" "1")
      (fun _ : Unit => ⟨200, []⟩) ()).headers "X" = some "1" ∧
    headerGet (defaultHeadersCall (DefaultHeaders.new.header "X" "1").contentType
      (fun _ : Unit => ⟨200, []⟩) ()).headers contentTypeKey =
        some "application/octet-stream" :=
  ⟨by
    have := (defaultHeaders_only_if_absent (DefaultHeaders.new.header "X" "1")
      (fun _ : Unit => ⟨200, [("X", "existing")]⟩) ()).1 "X" (by decide)
    rw [this]; decide,
   (defaultHeaders_only_if_absent (DefaultHeaders.new.header "X" "1")
      (fun _ : Unit => ⟨200, []⟩) ()).2.1 "X" "1" (by decide) (by decide),
   (defaultHeaders_only_if_absent
      (DefaultHeaders.new.header "X" "1").contentType
      (fun _ : Unit => ⟨200, []⟩) ()).2.2 rfl (by decide) (by decide)⟩

/-! ## Tuple-join extraction (`tuple_from_req!`, `src/extractor.rs`)

The `tuple_from_req!` macro generates, for each arity, a join future
holding one `Option` item slot and one in-flight future per member.  Its
`poll` walks the members in positional order: a member future is polled
only while its slot is `None`; `Ready(v)` stores `v` in the slot;
`NotReady` clears the overall ready flag; `Err(e)` returns the error
immediately (later members are not polled in that cycle).  When every slot
is filled the tuple of the taken values is returned in positional order.

Members are heterogeneous, so the state is modelled by lists of types:
`HVals αs` is a tuple of values, `HItems αs` the item slots, `HFuts E αs`
the member futures.  A member future is modelled by its observable poll
behaviour: `NotReady` on every poll cycle before `completesAt`, and its
`result` from that cycle on.  Because the join polls a member on every
cycle until its slot fills, a member's own poll count coincides with the
join's cycle number. -/

inductive HVals : List Type → Type 1
  | nil : HVals []
  | cons {α : Type} {αs : List Type} : α → HVals αs → HVals (α :: αs)

inductive HItems : List Type → Type 1
  | nil : HItems []
  | cons {α : Type} {αs : List Type} :
      Option α → HItems αs → HItems (α :: αs)

inductive HFuts (E : Type) : List Type → Type 1
  | nil : HFuts E []
  | cons {α : Type} {αs : List Type} :
      (Nat × Except E α) → HFuts E αs → HFuts E (α :: αs)

/-- A member future `(completesAt, result)` polled at cycle `t`: `none`
models `NotReady`, `some` a `Ready`/`Err` outcome. -/
def memberPoll {E α : Type} (f : Nat × Except E α) (t : Nat) :
    Option (Except E α) :=
  if f.1 ≤ t then some f.2 else none

/-- The member loop of `TupleFromRequestN::poll` at cycle `t`: returns the
first observed member error, or the updated slots together with the ready
flag (`false` iff some member returned `NotReady`). -/
def pollMembers {E : Type} :
    {αs : List Type} → HFuts E αs → HItems αs → Nat →
      Except E (HItems αs × Bool)
  | [], HFuts.nil, HItems.nil, _ => Except.ok (HItems.nil, true)
  | _ :: _, HFuts.cons f fs, HItems.cons it its, t =>
      match it with
      | some v =>
          match pollMembers fs its t with
          | Except.error e => Except.error e
          | Except.ok (its', ready) =>
              Except.ok (HItems.cons (some v) its', ready)
      | none =>
          match memberPoll f t with
          | some (Except.ok v) =>
              match pollMembers fs its t with
              | Except.error e => Except.error e
              | Except.ok (its', ready) =>
                  Except.ok (HItems.cons (some v) its', ready)
          | some (Except.error e) => Except.error e
          | none =>
              match pollMembers fs its t with
              | Except.error e => Except.error e
              | Except.ok (its', _) =>
                  Except.ok (HItems.cons none its', false)

/-- Embedding of `self.items.$n.take().unwrap()` over all slots: the output tuple when
every slot is filled, `none` when some `unwrap` would panic. -/
def fillAll : {αs : List Type} → HItems αs → Option (HVals αs)
  | [], HItems.nil => some HVals.nil
  | _ :: _, HItems.cons it its =>
      match it with
      | none => none
      | some v =>
          match fillAll its with
          | none => none
          | some vs => some (HVals.cons v vs)

/-- Outcome of repeatedly polling the join future: still `NotReady` when
the poll budget runs out, failed with the first observed member error,
completed with the output tuple, or a (provably unreachable) `unwrap`
panic. -/
inductive JoinOutcome (E : Type) : List Type → Type 1
  | pending {αs : List Type} : JoinOutcome E αs
  | failed {αs : List Type} : E → JoinOutcome E αs
  | completed {αs : List Type} : HVals αs → JoinOutcome E αs
  | panicked {αs : List Type} : JoinOutcome E αs

/-- Drive the join future for `fuel` poll cycles starting from slots `its`
at cycle `t`: each cycle runs the member loop, finishing with the tuple
when the ready flag holds, else polling again next cycle. -/
def runJoin {E : Type} {αs : List Type} (fs : HFuts E αs) :
    Nat → HItems αs → Nat → JoinOutcome E αs
  | 0, _, _ => JoinOutcome.pending
  | fuel + 1, its, t =>
      match pollMembers fs its t with
      | Except.error e => JoinOutcome.failed e
      | Except.ok (its', ready) =>
          if ready then
            match fillAll its' with
            | some vs => JoinOutcome.completed vs
            | none => JoinOutcome.panicked
          else runJoin fs fuel its' (t + 1)

/-- Initial slots, `<(Option<A>, ...)>::default()`: all slots empty. -/
def emptyItems : (αs : List Type) → HItems αs
  | [] => HItems.nil
  | _ :: αs => HItems.cons none (emptyItems αs)

/-! ### Spec-side characterisations of a member-future list

These definitions follow the spec's wording, to be compared with the
behaviour of the join: the tuple of member values when every member
eventually succeeds, the last completion time, and the first observed
failure (earliest completion time, earlier position winning ties). -/

def okValues {E : Type} : {αs : List Type} → HFuts E αs → Option (HVals αs)
  | [], HFuts.nil => some HVals.nil
  | _ :: _, HFuts.cons f fs =>
      match f.2, okValues fs with
      | Except.ok v, some vs => some (HVals.cons v vs)
      | _, _ => none

def maxCompletesAt {E : Type} : {αs : List Type} → HFuts E αs → Nat
  | [], HFuts.nil => 0
  | _ :: _, HFuts.cons f fs => max f.1 (maxCompletesAt fs)

def firstFailure {E : Type} :
    {αs : List Type} → HFuts E αs → Option (Nat × E)
  | [], HFuts.nil => none
  | _ :: _, HFuts.cons f fs =>
      match f.2 with
      | Except.ok _ => firstFailure fs
      | Except.error e =>
          match firstFailure fs with
          | none => some (f.1, e)
          | some (t', e') =>
              if f.1 ≤ t' then some (f.1, e) else some (t', e')

/-- The slot state at the start of cycle `t` of a run from empty slots: a
member's slot holds its value iff it succeeded at a cycle before `t`. -/
def itemsAt {E : Type} : {αs : List Type} → HFuts E αs → Nat → HItems αs
  | [], HFuts.nil, _ => HItems.nil
  | _ :: _, HFuts.cons f fs, t =>
      HItems.cons
        (match f.2 with
         | Except.ok v => if f.1 < t then some v else none
         | Except.error _ => none)
        (itemsAt fs t)

/-- The ready flag produced by cycle `t`: every member succeeded by cycle
`t`. -/
def allOkBy {E : Type} : {αs : List Type} → HFuts E αs → Nat → Bool
  | [], HFuts.nil, _ => true
  | _ :: _, HFuts.cons f fs, t =>
      (match f.2 with
       | Except.ok _ => decide (f.1 ≤ t)
       | Except.error _ => false) && allOkBy fs t

/-- No member failure is observable by cycle `t`: every failing member
completes strictly after `t`. -/
def noErrorBy {E : Type} : {αs : List Type} → HFuts E αs → Nat → Prop
  | [], HFuts.nil, _ => True
  | _ :: _, HFuts.cons f fs, t =>
      (∀ e, f.2 = Except.error e → t < f.1) ∧ noErrorBy fs t

/-! ### Cycle lemmas -/

theorem itemsAt_zero {E : Type} :
    ∀ {αs : List Type} (fs : HFuts E αs), itemsAt fs 0 = emptyItems αs := by
  intro αs fs
  induction fs with
  | nil => rfl
  | cons f fs ih =>
      simp only [itemsAt, emptyItems, ih]
      cases hr : f.2 with
      | ok v => simp
      | error e => simp

/-- One poll cycle at time `t`, before any failure is observable, turns
the cycle-`t` slot state into the cycle-`t+1` slot state, the ready flag
recording whether every member has succeeded by `t`. -/
theorem pollMembers_itemsAt {E : Type} :
    ∀ {αs : List Type} (fs : HFuts E αs) (t : Nat), noErrorBy fs t →
      pollMembers fs (itemsAt fs t) t =
        Except.ok (itemsAt fs (t + 1), allOkBy fs t) := by
  intro αs fs
  induction fs with
  | nil => intro t _; rfl
  | cons f fs ih =>
      intro t hne
      obtain ⟨hhead, htail⟩ := hne
      cases hr : f.2 with
      | ok v =>
          simp only [itemsAt, pollMembers, allOkBy, hr]
          by_cases hlt : f.1 < t
          · rw [if_pos hlt]
            simp only [ih t htail]
            rw [if_pos (Nat.lt_succ_of_lt hlt),
              decide_eq_true (Nat.le_of_lt hlt), Bool.true_and]
          · rw [if_neg hlt]
            simp only [memberPoll, hr]
            by_cases hle : f.1 ≤ t
            · rw [if_pos hle]
              simp only [ih t htail]
              rw [if_pos (Nat.lt_succ_of_le hle),
                decide_eq_true hle, Bool.true_and]
            · rw [if_neg hle]
              simp only [ih t htail]
              rw [if_neg (fun hlt' => hle (Nat.le_of_lt_succ hlt')),
                decide_eq_false hle, Bool.false_and]
      | error e =>
          have hgt : t < f.1 := hhead e hr
          simp only [itemsAt, pollMembers, allOkBy, hr]
          simp only [memberPoll, hr]
          rw [if_neg (Nat.not_le_of_lt hgt)]
          simp only [ih t htail]
          rw [Bool.false_and]

theorem noErrorBy_of_okValues {E : Type} :
    ∀ {αs : List Type} (fs : HFuts E αs) (vs : HVals αs),
      okValues fs = some vs → ∀ t, noErrorBy fs t := by
  intro αs fs
  induction fs with
  | nil => intro vs _ t; trivial
  | cons f fs ih =>
      intro vs hok t
      simp only [okValues] at hok
      cases hr : f.2 with
      | error e => rw [hr] at hok; cases hok
      | ok v =>
          rw [hr] at hok
          cases hvs : okValues fs with
          | none => rw [hvs] at hok; cases hok
          | some ws =>
              exact ⟨fun e he => absurd (hr ▸ he) (by simp),
                ih ws hvs t⟩

theorem allOkBy_of_okValues {E : Type} :
    ∀ {αs : List Type} (fs : HFuts E αs) (vs : HVals αs),
      okValues fs = some vs → ∀ t,
        allOkBy fs t = decide (maxCompletesAt fs ≤ t) := by
  intro αs fs
  induction fs with
  | nil =>
      intro vs _ t
      simp [allOkBy, maxCompletesAt]
  | cons f fs ih =>
      intro vs hok t
      simp only [okValues] at hok
      cases hr : f.2 with
      | error e => rw [hr] at hok; cases hok
      | ok v =>
          rw [hr] at hok
          cases hvs : okValues fs with
          | none => rw [hvs] at hok; cases hok
          | some ws =>
              simp only [allOkBy, maxCompletesAt, hr, ih ws hvs t]
              by_cases h1 : f.1 ≤ t <;> by_cases h2 : maxCompletesAt fs ≤ t <;>
                simp [h1, h2, Nat.max_le]

theorem fillAll_itemsAt {E : Type} :
    ∀ {αs : List Type} (fs : HFuts E αs) (vs : HVals αs),
      okValues fs = some vs → ∀ t, maxCompletesAt fs ≤ t →
        fillAll (itemsAt fs (t + 1)) = some vs := by
  intro αs fs
  induction fs with
  | nil =>
      intro vs hok t _
      simp only [okValues] at hok
      cases hok
      rfl
  | cons f fs ih =>
      intro vs hok t hle
      simp only [okValues] at hok
      simp only [maxCompletesAt] at hle
      rw [Nat.max_le] at hle
      cases hr : f.2 with
      | error e => rw [hr] at hok; cases hok
      | ok v =>
          rw [hr] at hok
          cases hvs : okValues fs with
          | none => rw [hvs] at hok; cases hok
          | some ws =>
              rw [hvs] at hok
              cases hok
              simp only [itemsAt, hr]
              rw [if_pos (Nat.lt_succ_of_le hle.1)]
              simp only [fillAll]
              rw [ih ws hvs t hle.2]

/-- Running the join from the cycle-`t` slot state, all members
succeeding, stays pending exactly until the cycle budget passes the last
completion time, then completes with the member values. -/
theorem runJoin_success_from {E : Type} {αs : List Type} (fs : HFuts E αs)
    (vs : HVals αs) (hok : okValues fs = some vs) :
    ∀ (fuel t : Nat), t ≤ maxCompletesAt fs →
      runJoin fs fuel (itemsAt fs t) t =
        if maxCompletesAt fs < t + fuel then JoinOutcome.completed vs
        else JoinOutcome.pending := by
  intro fuel
  induction fuel with
  | zero =>
      intro t ht
      rw [if_neg (by omega)]
      rfl
  | succ fuel ih =>
      intro t ht
      simp only [runJoin,
        pollMembers_itemsAt fs t (noErrorBy_of_okValues fs vs hok t),
        allOkBy_of_okValues fs vs hok t]
      by_cases hdone : maxCompletesAt fs ≤ t
      · rw [decide_eq_true hdone]
        simp only [if_true]
        rw [fillAll_itemsAt fs vs hok t hdone]
        rw [if_pos (by omega)]
      · rw [decide_eq_false hdone]
        simp only [Bool.false_eq_true, if_false]
        rw [ih (t + 1) (by omega)]
        by_cases hc : maxCompletesAt fs < t + 1 + fuel
        · rw [if_pos hc, if_pos (by omega)]
        · rw [if_neg hc, if_neg (by omega)]

/-- Claim C3: For every member-future list, whenever every member eventually
completes successfully, the join — started from empty slots — completes
with the tuple of all member values in declared positional order, whatever
the members' completion times; and it stays pending on every cycle budget
that ends before the last member completes. -/
theorem tuple_join_success {E : Type} {αs : List Type} (fs : HFuts E αs)
    (vs : HVals αs) (hok : okValues fs = some vs) :
    runJoin fs (maxCompletesAt fs + 1) (emptyItems αs) 0 =
      JoinOutcome.completed vs ∧
    ∀ fuel, fuel ≤ maxCompletesAt fs →
      runJoin fs fuel (emptyItems αs) 0 = JoinOutcome.pending := by
  constructor
  · rw [← itemsAt_zero fs,
      runJoin_success_from fs vs hok (maxCompletesAt fs + 1) 0
        (Nat.zero_le _)]
    rw [if_pos (by omega)]
  · intro fuel hfuel
    rw [← itemsAt_zero fs,
      runJoin_success_from fs vs hok fuel 0 (Nat.zero_le _)]
    rw [if_neg (by omega)]

/-- Witness for `tuple_join_success`: the spec's example — member `B`
(position 2, completing at cycle 0) completes before member `A`
(position 1, completing at cycle 2); the result is still `(A, B)` in
declared order, and the join is pending while `A` is in flight. -/
theorem tuple_join_success_witness :
    runJoin
      (HFuts.cons ((2, Except.ok 5) : Nat × Except String Nat)
        (HFuts.cons ((0, Except.ok "x") : Nat × Except String String)
          HFuts.nil))
      3 (emptyItems [Nat, String]) 0 =
      JoinOutcome.completed (HVals.cons 5 (HVals.cons "x" HVals.nil)) ∧
    runJoin
      (HFuts.cons ((2, Except.ok 5) : Nat × Except String Nat)
        (HFuts.cons ((0, Except.ok "x") : Nat × Except String String)
          HFuts.nil))
      2 (emptyItems [Nat, String]) 0 = JoinOutcome.pending :=
  ⟨(tuple_join_success
      (HFuts.cons ((2, Except.ok 5) : Nat × Except String Nat)
        (HFuts.cons ((0, Except.ok "x") : Nat × Except String String)
          HFuts.nil))
      (HVals.cons 5 (HVals.cons "x" HVals.nil)) rfl).1,
   (tuple_join_success
      (HFuts.cons ((2, Except.ok 5) : Nat × Except String Nat)
        (HFuts.cons ((0, Except.ok "x") : Nat × Except String String)
          HFuts.nil))
      (HVals.cons 5 (HVals.cons "x" HVals.nil)) rfl).2 2 (by decide)⟩

/-! ### Failure lemmas -/

theorem noErrorBy_of_firstFailure_none {E : Type} :
    ∀ {αs : List Type} (fs : HFuts E αs), firstFailure fs = none →
      ∀ t, noErrorBy fs t := by
  intro αs fs
  induction fs with
  | nil => intro _ t; trivial
  | cons f fs ih =>
      intro hff t
      simp only [firstFailure] at hff
      cases hr : f.2 with
      | ok v =>
          simp only [hr] at hff
          refine ⟨fun e he => ?_, ih hff t⟩
          rw [hr] at he
          cases he
      | error e =>
          simp only [hr] at hff
          cases hfs : firstFailure fs with
          | none => simp only [hfs] at hff; cases hff
          | some p =>
              obtain ⟨t', e'⟩ := p
              simp only [hfs] at hff
              by_cases h1 : f.1 ≤ t'
              · rw [if_pos h1] at hff; cases hff
              · rw [if_neg h1] at hff; cases hff

theorem noErrorBy_of_firstFailure_gt {E : Type} :
    ∀ {αs : List Type} (fs : HFuts E αs) (c : Nat) (e : E),
      firstFailure fs = some (c, e) → ∀ t, t < c → noErrorBy fs t := by
  intro αs fs
  induction fs with
  | nil => intro c e hff; cases hff
  | cons f fs ih =>
      intro c e hff t ht
      simp only [firstFailure] at hff
      cases hr : f.2 with
      | ok v =>
          simp only [hr] at hff
          refine ⟨fun e' he => ?_, ih c e hff t ht⟩
          rw [hr] at he
          cases he
      | error e0 =>
          simp only [hr] at hff
          cases hfs : firstFailure fs with
          | none =>
              simp only [hfs] at hff
              injection hff with hp
              injection hp with hc he
              refine ⟨fun e' _ => ?_, noErrorBy_of_firstFailure_none fs hfs t⟩
              rw [← hc] at ht
              exact ht
          | some p =>
              obtain ⟨t', e'⟩ := p
              simp only [hfs] at hff
              by_cases h1 : f.1 ≤ t'
              · rw [if_pos h1] at hff
                injection hff with hp
                injection hp with hc he
                refine ⟨fun e'' _ => ?_, ih t' e' hfs t (by omega)⟩
                rw [← hc] at ht
                exact ht
              · rw [if_neg h1] at hff
                injection hff with hp
                injection hp with hc he
                rw [← hc] at ht
                refine ⟨fun e'' _ => by omega, ih t' e' hfs t ht⟩

theorem allOkBy_false_of_firstFailure {E : Type} :
    ∀ {αs : List Type} (fs : HFuts E αs) (p : Nat × E),
      firstFailure fs = some p → ∀ t, allOkBy fs t = false := by
  intro αs fs
  induction fs with
  | nil => intro p hff; cases hff
  | cons f fs ih =>
      intro p hff t
      simp only [firstFailure] at hff
      simp only [allOkBy]
      cases hr : f.2 with
      | ok v =>
          simp only [hr] at hff ⊢
          rw [ih p hff t, Bool.and_false]
      | error e =>
          simp only [hr]
          rw [Bool.false_and]

/-- At the cycle of the first observed failure, the member loop returns
exactly that failure's error. -/
theorem pollMembers_failure {E : Type} :
    ∀ {αs : List Type} (fs : HFuts E αs) (c : Nat) (e : E),
      firstFailure fs = some (c, e) →
        pollMembers fs (itemsAt fs c) c = Except.error e := by
  intro αs fs
  induction fs with
  | nil => intro c e hff; cases hff
  | cons f fs ih =>
      intro c e hff
      simp only [firstFailure] at hff
      cases hr : f.2 with
      | ok v =>
          simp only [hr] at hff
          simp only [itemsAt, pollMembers, hr]
          by_cases hlt : f.1 < c
          · rw [if_pos hlt]
            rw [ih c e hff]
          · rw [if_neg hlt]
            simp only [memberPoll, hr]
            by_cases hle : f.1 ≤ c
            · rw [if_pos hle]
              rw [ih c e hff]
            · rw [if_neg hle]
              rw [ih c e hff]
      | error e0 =>
          simp only [hr] at hff
          simp only [itemsAt, pollMembers, hr]
          simp only [memberPoll, hr]
          cases hfs : firstFailure fs with
          | none =>
              simp only [hfs] at hff
              injection hff with hp
              injection hp with hc he
              rw [← hc, ← he]
              rw [if_pos (Nat.le_refl f.1)]
          | some p =>
              obtain ⟨t', e'⟩ := p
              simp only [hfs] at hff
              by_cases h1 : f.1 ≤ t'
              · rw [if_pos h1] at hff
                injection hff with hp
                injection hp with hc he
                rw [← hc, ← he]
                rw [if_pos (Nat.le_refl f.1)]
              · rw [if_neg h1] at hff
                injection hff with hp
                injection hp with hc he
                rw [← hc, ← he]
                rw [if_neg h1]
                rw [ih t' e' hfs]

/-- Running the join from the cycle-`t` slot state, with a first failure
observable at cycle `c`, stays pending exactly until the budget reaches
the failure cycle, then fails with that error. -/
theorem runJoin_failure_from {E : Type} {αs : List Type} (fs : HFuts E αs)
    (c : Nat) (e : E) (hff : firstFailure fs = some (c, e)) :
    ∀ (fuel t : Nat), t ≤ c →
      runJoin fs fuel (itemsAt fs t) t =
        if c < t + fuel then JoinOutcome.failed e else JoinOutcome.pending := by
  intro fuel
  induction fuel with
  | zero =>
      intro t ht
      rw [if_neg (by omega)]
      rfl
  | succ fuel ih =>
      intro t ht
      by_cases heq : t = c
      · subst heq
        simp only [runJoin, pollMembers_failure fs t e hff]
        rw [if_pos (by omega)]
      · have htlt : t < c := by omega
        simp only [runJoin,
          pollMembers_itemsAt fs t
            (noErrorBy_of_firstFailure_gt fs c e hff t htlt),
          allOkBy_false_of_firstFailure fs (c, e) hff t]
        simp only [Bool.false_eq_true, if_false]
        rw [ih (t + 1) (by omega)]
        by_cases hc : c < t + 1 + fuel
        · rw [if_pos hc, if_pos (by omega)]
        · rw [if_neg hc, if_neg (by omega)]

/-- Claim C4: If any member's extraction fails, the join — started from
empty slots — fails exactly when its cycle budget reaches the first
observed failure (earliest completion time, earlier position winning
ties), with that member's error, whatever the other members would have
produced; and it never surfaces a completed tuple. -/
theorem tuple_join_first_failure {E : Type} {αs : List Type}
    (fs : HFuts E αs) (c : Nat) (e : E)
    (hff : firstFailure fs = some (c, e)) :
    (∀ fuel, runJoin fs fuel (emptyItems αs) 0 =
        if c < fuel then JoinOutcome.failed e else JoinOutcome.pending) ∧
    (∀ fuel (vs : HVals αs),
        runJoin fs fuel (emptyItems αs) 0 ≠ JoinOutcome.completed vs) := by
  have hrun : ∀ fuel, runJoin fs fuel (emptyItems αs) 0 =
      if c < fuel then JoinOutcome.failed e else JoinOutcome.pending := by
    intro fuel
    rw [← itemsAt_zero fs,
      runJoin_failure_from fs c e hff fuel 0 (Nat.zero_le c)]
    simp only [Nat.zero_add]
  refine ⟨hrun, ?_⟩
  intro fuel vs hcompl
  rw [hrun fuel] at hcompl
  by_cases hc : c < fuel
  · rw [if_pos hc] at hcompl
    cases hcompl
  · rw [if_neg hc] at hcompl
    cases hcompl

/-- Member futures for the `tuple_join_first_failure` witness: a 3-member
tuple whose second member fails at cycle 1 while members 1 and 3 would
have succeeded. -/
def failureWitnessFuts : HFuts String [Nat, Nat, Nat] :=
  HFuts.cons ((0, Except.ok 1) : Nat × Except String Nat)
    (HFuts.cons ((1, Except.error "boom") : Nat × Except String Nat)
      (HFuts.cons ((5, Except.ok 2) : Nat × Except String Nat) HFuts.nil))

/-- Witness for `tuple_join_first_failure`: member 2 of a 3-member tuple
fails; the join fails with member 2's error even though members 1 and 3
would have succeeded. -/
theorem tuple_join_first_failure_witness :
    runJoin failureWitnessFuts 2 (emptyItems [Nat, Nat, Nat]) 0 =
      JoinOutcome.failed "boom" :=
  ((tuple_join_first_failure failureWitnessFuts 1 "boom" rfl).1 2).trans
    (if_pos (by decide))

/-! ### The slot-guard invariant

`TupleFromRequestN::poll` guards every member poll by
`self.items.$n.is_none()`.  Two consequences capture "a completed member
future is never polled again": the member loop's result does not depend on
the futures sitting at filled slots (`AgreeOnEmpty` lets them differ
arbitrarily), and filled slots are preserved with their values
(`FilledLe`), so a slot once filled shields its future for the rest of the
run. -/

/-- Two member-future lists that agree at every position whose item slot
is empty; at filled slots they may differ arbitrarily. -/
inductive AgreeOnEmpty {E : Type} :
    {αs : List Type} → HFuts E αs → HFuts E αs → HItems αs → Prop
  | nil : AgreeOnEmpty HFuts.nil HFuts.nil HItems.nil
  | consFilled {α : Type} {αs : List Type} {f f' : Nat × Except E α}
      {fs fs' : HFuts E αs} {its : HItems αs} (v : α) :
      AgreeOnEmpty fs fs' its →
      AgreeOnEmpty (HFuts.cons f fs) (HFuts.cons f' fs')
        (HItems.cons (some v) its)
  | consEmpty {α : Type} {αs : List Type} {f : Nat × Except E α}
      {fs fs' : HFuts E αs} {its : HItems αs} :
      AgreeOnEmpty fs fs' its →
      AgreeOnEmpty (HFuts.cons f fs) (HFuts.cons f fs')
        (HItems.cons none its)

/-- Pointwise slot preservation: every filled slot stays filled with the
same value. -/
inductive FilledLe : {αs : List Type} → HItems αs → HItems αs → Prop
  | nil : FilledLe HItems.nil HItems.nil
  | cons {α : Type} {αs : List Type} {o o' : Option α}
      {its its' : HItems αs} :
      (∀ v : α, o = some v → o' = some v) → FilledLe its its' →
      FilledLe (HItems.cons o its) (HItems.cons o' its')

theorem pollMembers_agree {E : Type} {αs : List Type}
    {fs fs' : HFuts E αs} {its : HItems αs}
    (hA : AgreeOnEmpty fs fs' its) (t : Nat) :
    pollMembers fs its t = pollMembers fs' its t := by
  induction hA with
  | nil => rfl
  | consFilled v _ ih =>
      simp only [pollMembers]
      rw [ih]
  | consEmpty _ ih =>
      simp only [pollMembers]
      rw [ih]

theorem pollMembers_filledLe {E : Type} :
    ∀ {αs : List Type} (fs : HFuts E αs) (its : HItems αs) (t : Nat)
      (its2 : HItems αs) (ready : Bool),
      pollMembers fs its t = Except.ok (its2, ready) → FilledLe its its2 := by
  intro αs fs
  induction fs with
  | nil =>
      intro its t its2 ready h
      cases its
      simp only [pollMembers] at h
      injection h with hp
      injection hp with h1 h2
      rw [← h1]
      exact FilledLe.nil
  | cons f fs ih =>
      intro its t its2 ready h
      cases its with
      | cons it its =>
          simp only [pollMembers] at h
          cases it with
          | some v =>
              cases hrec : pollMembers fs its t with
              | error e => simp only [hrec] at h; cases h
              | ok p =>
                  obtain ⟨its3, r⟩ := p
                  simp only [hrec] at h
                  injection h with hp
                  injection hp with h1 h2
                  rw [← h1]
                  exact FilledLe.cons (fun w hw => hw) (ih its t its3 r hrec)
          | none =>
              cases hmp : memberPoll f t with
              | none =>
                  simp only [hmp] at h
                  cases hrec : pollMembers fs its t with
                  | error e => simp only [hrec] at h; cases h
                  | ok p =>
                      obtain ⟨its3, r⟩ := p
                      simp only [hrec] at h
                      injection h with hp
                      injection hp with h1 h2
                      rw [← h1]
                      exact FilledLe.cons (fun w hw => by cases hw)
                        (ih its t its3 r hrec)
              | some r =>
                  cases r with
                  | ok v =>
                      simp only [hmp] at h
                      cases hrec : pollMembers fs its t with
                      | error e => simp only [hrec] at h; cases h
                      | ok p =>
                          obtain ⟨its3, r'⟩ := p
                          simp only [hrec] at h
                          injection h with hp
                          injection hp with h1 h2
                          rw [← h1]
                          exact FilledLe.cons (fun w hw => by cases hw)
                            (ih its t its3 r' hrec)
                  | error e => simp only [hmp] at h; cases h

theorem agreeOnEmpty_preserved {E : Type} {αs : List Type}
    {fs fs' : HFuts E αs} {its : HItems αs}
    (hA : AgreeOnEmpty fs fs' its) (t : Nat) :
    ∀ (its2 : HItems αs) (ready : Bool),
      pollMembers fs its t = Except.ok (its2, ready) →
      AgreeOnEmpty fs fs' its2 := by
  induction hA with
  | nil =>
      intro its2 ready h
      simp only [pollMembers] at h
      injection h with hp
      injection hp with h1 h2
      rw [← h1]
      exact AgreeOnEmpty.nil
  | @consFilled α αs f f' fs2 fs2' its v hA ih =>
      intro its2 ready h
      simp only [pollMembers] at h
      cases hrec : pollMembers fs2 its t with
      | error e => rw [hrec] at h; cases h
      | ok p =>
          obtain ⟨its3, r⟩ := p
          rw [hrec] at h
          injection h with hp
          injection hp with h1 h2
          rw [← h1]
          exact AgreeOnEmpty.consFilled v (ih its3 r hrec)
  | @consEmpty α αs f fs2 fs2' its hA ih =>
      intro its2 ready h
      simp only [pollMembers] at h
      cases hmp : memberPoll f t with
      | none =>
          simp only [hmp] at h
          cases hrec : pollMembers fs2 its t with
          | error e => rw [hrec] at h; cases h
          | ok p =>
              obtain ⟨its3, r⟩ := p
              rw [hrec] at h
              injection h with hp
              injection hp with h1 h2
              rw [← h1]
              exact AgreeOnEmpty.consEmpty (ih its3 r hrec)
      | some r =>
          cases r with
          | ok v =>
              simp only [hmp] at h
              cases hrec : pollMembers fs2 its t with
              | error e => rw [hrec] at h; cases h
              | ok p =>
                  obtain ⟨its3, r'⟩ := p
                  rw [hrec] at h
                  injection h with hp
                  injection hp with h1 h2
                  rw [← h1]
                  exact AgreeOnEmpty.consFilled v (ih its3 r' hrec)
          | error e => simp only [hmp] at h; cases h

theorem runJoin_agree {E : Type} :
    ∀ (fuel : Nat) {αs : List Type} (fs fs' : HFuts E αs)
      (its : HItems αs) (t : Nat), AgreeOnEmpty fs fs' its →
      runJoin fs fuel its t = runJoin fs' fuel its t := by
  intro fuel
  induction fuel with
  | zero => intro αs fs fs' its t _; rfl
  | succ fuel ih =>
      intro αs fs fs' its t hA
      simp only [runJoin]
      cases hrec : pollMembers fs its t with
      | error e =>
          have h2 := (pollMembers_agree hA t).symm.trans hrec
          rw [h2]
      | ok p =>
          obtain ⟨its2, ready⟩ := p
          have h2 := (pollMembers_agree hA t).symm.trans hrec
          rw [h2]
          cases ready with
          | true => rfl
          | false =>
              show runJoin fs fuel its2 (t + 1) = runJoin fs' fuel its2 (t + 1)
              exact ih fs fs' its2 (t + 1)
                (agreeOnEmpty_preserved hA t its2 false hrec)

/-- Claim C9: Invariant of the tuple-join state machine: a member future is
polled in a poll cycle only while its slot is empty.  Concretely: the
member loop's outcome is unchanged when the futures at filled slots are
replaced arbitrarily (they are not polled), every filled slot survives a
cycle with its value, and whole runs of the join are likewise insensitive
to the futures at filled slots — once a member's value is stored, that
future is never polled again. -/
theorem tuple_join_slot_guard {E : Type} {αs : List Type}
    (fs fs' : HFuts E αs) (its : HItems αs) (t : Nat)
    (hA : AgreeOnEmpty fs fs' its) :
    pollMembers fs its t = pollMembers fs' its t ∧
    (∀ (its2 : HItems αs) (ready : Bool),
        pollMembers fs its t = Except.ok (its2, ready) → FilledLe its its2) ∧
    (∀ fuel, runJoin fs fuel its t = runJoin fs' fuel its t) :=
  ⟨pollMembers_agree hA t,
   fun its2 ready h => pollMembers_filledLe fs its t its2 ready h,
   fun fuel => runJoin_agree fuel fs fs' its t hA⟩

/-- Member futures for the `tuple_join_slot_guard` witness: slot 1 is
already filled, and the two lists differ exactly at that position. -/
def guardWitnessFuts : HFuts String [Nat, Nat] :=
  HFuts.cons ((0, Except.ok 1) : Nat × Except String Nat)
    (HFuts.cons ((3, Except.ok 2) : Nat × Except String Nat) HFuts.nil)

def guardWitnessFutsAlt : HFuts String [Nat, Nat] :=
  HFuts.cons ((9, Except.error "never") : Nat × Except String Nat)
    (HFuts.cons ((3, Except.ok 2) : Nat × Except String Nat) HFuts.nil)

def guardWitnessItems : HItems [Nat, Nat] :=
  HItems.cons (some 5) (HItems.cons none HItems.nil)

/-- Witness for `tuple_join_slot_guard`: with slot 1 filled, replacing
member 1's future (even by a failing one) changes neither one poll cycle
nor a whole run. -/
theorem tuple_join_slot_guard_witness :
    pollMembers guardWitnessFuts guardWitnessItems 0 =
      pollMembers guardWitnessFutsAlt guardWitnessItems 0 ∧
    runJoin guardWitnessFuts 5 guardWitnessItems 0 =
      runJoin guardWitnessFutsAlt 5 guardWitnessItems 0 :=
  ⟨(tuple_join_slot_guard guardWitnessFuts guardWitnessFutsAlt
      guardWitnessItems 0
      (AgreeOnEmpty.consFilled 5
        (AgreeOnEmpty.consEmpty AgreeOnEmpty.nil))).1,
   (tuple_join_slot_guard guardWitnessFuts guardWitnessFutsAlt
      guardWitnessItems 0
      (AgreeOnEmpty.consFilled 5
        (AgreeOnEmpty.consEmpty AgreeOnEmpty.nil))).2.2 5⟩

end ActixWeb2
